import Mathlib

/-!
Verification of the course-graph construction and graph-traversal retrieval
subsystem of the rag-ed repository.

The embedding models:
- the networkx directed graph as used by CourseGraph (src/rag_ed/graphs/course.py):
  an association list of nodes (each node optionally carrying a document
  attribute) plus an association list of successor lists, both kept in
  insertion order, exactly as Python dicts preserve insertion order;
- CourseGraph.add_artifact, CourseGraph.add_relationship, CourseGraph.neighbors;
- GraphRetriever.retrieve (src/rag_ed/retrievers/graph.py): breadth-first
  traversal with a visited set and a depth bound;
- the graph builder _graph_from_documents (src/rag_ed/graphs/generation.py):
  grouping by the parent of the source path and chaining each group in
  timestamp order.

Python exceptions are modelled with Except: a KeyError carrying its message
string. The BFS while-loop is modelled with explicit fuel; the fuel sentinel
(GraphError.fuelExhausted) is proved unreachable, which is the termination
statement for the loop.
-/

namespace RagEd

/-- Model of a langchain Document as consumed by the builder: page content
plus the two metadata fields the core reads through metadata.get, each
optional because the Python dict may lack the key. -/
structure Doc where
  page_content : String
  source : Option String
  timestamp : Option String
deriving DecidableEq, Repr

/-- Model of the errors the core can raise. keyError models a Python
KeyError carrying its message; fuelExhausted is the sentinel for the
fuel-instrumented BFS loop and is proved unreachable. -/
inductive GraphError where
  | keyError (msg : String)
  | fuelExhausted
deriving DecidableEq, Repr

/-- Model of the networkx DiGraph held by CourseGraph. nodes is the node
dict in insertion order, each node with its optional document attribute;
succ is the adjacency dict in insertion order, each node with its list of
successors in edge-insertion order. -/
structure DiGraph (α : Type) where
  nodes : List (String × Option α)
  succ : List (String × List String)
deriving DecidableEq, Repr

def emptyGraph (α : Type) : DiGraph α := ⟨[], []⟩

/-- Lookup of a node entry: some attr when the node is present. -/
def lookupNode (g : DiGraph α) (id : String) : Option (Option α) :=
  (g.nodes.find? (fun p => p.1 == id)).map (·.2)

/-- Membership test, modelling the Python expression id in graph. -/
def containsNode (g : DiGraph α) (id : String) : Bool :=
  (lookupNode g id).isSome

def nodeKeys (g : DiGraph α) : List String := g.nodes.map (·.1)

/-- Successor list of a node (empty when the node has no adjacency entry;
every node inserted through the API gets one). -/
def succOf (g : DiGraph α) (id : String) : List String :=
  ((g.succ.find? (fun p => p.1 == id)).map (·.2)).getD []

/-- The document attribute of a node, when the node exists and carries one. -/
def docOf (g : DiGraph α) (id : String) : Option α :=
  (lookupNode g id).bind (fun x => x)

/-- Update the document attribute of an existing node in place. -/
def setDoc : List (String × Option α) → String → α → List (String × Option α)
  | [], _, _ => []
  | (k, v) :: rest, id, d =>
    if k = id then (k, some d) :: rest else (k, v) :: setDoc rest id d

/-- CourseGraph.add_artifact: networkx add_node with a document attribute.
A fresh node is appended to both dicts; an existing node has its attribute
overwritten and keeps its position. -/
def add_artifact (g : DiGraph α) (id : String) (d : α) : DiGraph α :=
  if containsNode g id then
    { g with nodes := setDoc g.nodes id d }
  else
    { nodes := g.nodes ++ [(id, some d)], succ := g.succ ++ [(id, [])] }

/-- networkx add_edge first silently creates missing endpoint nodes, with no
document attribute. -/
def ensureNode (g : DiGraph α) (id : String) : DiGraph α :=
  if containsNode g id then g
  else { nodes := g.nodes ++ [(id, none)], succ := g.succ ++ [(id, [])] }

/-- Append t to the successor list of s (no-op when the edge exists;
networkx DiGraph has no parallel edges). -/
def addSucc : List (String × List String) → String → String → List (String × List String)
  | [], s, t => [(s, [t])]
  | (k, ts) :: rest, s, t =>
    if k = s then (k, if t ∈ ts then ts else ts ++ [t]) :: rest
    else (k, ts) :: addSucc rest s t

/-- CourseGraph.add_relationship: networkx add_edge. -/
def add_relationship (g : DiGraph α) (s t : String) : DiGraph α :=
  let g1 := ensureNode (ensureNode g s) t
  { g1 with succ := addSucc g1.succ s t }

def notFoundMsg (id : String) : String :=
  "Artifact ID \x27" ++ id ++ "\x27 not found in graph."

/-- The list comprehension in CourseGraph.neighbors: look up the document
attribute of each listed node, raising KeyError(n) when n is not a node and
KeyError with message document when the node has no document attribute,
left to right. -/
def getDocs (g : DiGraph α) : List String → Except GraphError (List α)
  | [] => .ok []
  | n :: ns =>
    match lookupNode g n with
    | none => .error (.keyError n)
    | some none => .error (.keyError "document")
    | some (some d) => (getDocs g ns).map (fun l => d :: l)

/-- CourseGraph.neighbors. -/
def neighbors (g : DiGraph α) (id : String) : Except GraphError (List α) :=
  if containsNode g id then getDocs g (succOf g id)
  else .error (.keyError (notFoundMsg id))

/-- GraphRetriever: the course graph together with the configured default
maximum depth. Depths are Int because Python ints are unbounded and signed. -/
structure GraphRetriever (α : Type) where
  graph : DiGraph α
  maxDepth : Int
deriving DecidableEq, Repr

/-- The inner for-loop of GraphRetriever.retrieve: process the neighbor list
of a dequeued node at depth d, accumulating the visited set, the queue and
the output document list. -/
def expand (g : DiGraph α) (d : Int) :
    List String → List String → List (String × Int) → List α →
    Except GraphError (List String × List (String × Int) × List α)
  | [], visited, queue, docs => .ok (visited, queue, docs)
  | n :: ns, visited, queue, docs =>
    if n ∈ visited then expand g d ns visited queue docs
    else
      match lookupNode g n with
      | none => .error (.keyError n)
      | some none => .error (.keyError "document")
      | some (some doc) =>
        expand g d ns (n :: visited) (queue ++ [(n, d + 1)]) (docs ++ [doc])

/-- The while-loop of GraphRetriever.retrieve, instrumented with fuel.
none means the fuel ran out, which is proved to never happen for the fuel
supplied by retrieve. -/
def bfsLoop (g : DiGraph α) (depth : Int) :
    Nat → List (String × Int) → List String → List α →
    Option (Except GraphError (List α))
  | 0, _, _, _ => none
  | _ + 1, [], _, docs => some (.ok docs)
  | fuel + 1, (node, d) :: rest, visited, docs =>
    if depth ≤ d then bfsLoop g depth fuel rest visited docs
    else
      match expand g d (succOf g node) visited rest docs with
      | .error e => some (.error e)
      | .ok (v, q, ds) => bfsLoop g depth fuel q v ds

/-- GraphRetriever.retrieve. The optional maxDepth argument overrides the
configured default, as in the Python keyword argument. -/
def GraphRetriever.retrieve (r : GraphRetriever α) (id : String)
    (maxDepth : Option Int) : Except GraphError (List α) :=
  if containsNode r.graph id then
    let depth := maxDepth.getD r.maxDepth
    match bfsLoop r.graph depth (2 * r.graph.nodes.length + 1) [(id, 0)] [id] [] with
    | some res => res
    | none => .error .fuelExhausted
  else .error (.keyError (notFoundMsg id))

/-- The chain graph A to B to C to D with one document per node, used by the
depth-bound claim. -/
def chainGraph : DiGraph String :=
  add_relationship
    (add_relationship
      (add_relationship
        (add_artifact
          (add_artifact
            (add_artifact
              (add_artifact (emptyGraph String) "A" "docA")
              "B" "docB")
            "C" "docC")
          "D" "docD")
        "A" "B")
      "B" "C")
    "C" "D"

/-- The cycle graph with edges A to B and B to A. -/
def cycleGraph : DiGraph String :=
  add_relationship
    (add_relationship
      (add_artifact (add_artifact (emptyGraph String) "A" "docA") "B" "docB")
      "A" "B")
    "B" "A"

/-- The diamond graph with edges A to B, A to C, B to D, C to D. -/
def diamondGraph : DiGraph String :=
  add_relationship
    (add_relationship
      (add_relationship
        (add_relationship
          (add_artifact
            (add_artifact
              (add_artifact
                (add_artifact (emptyGraph String) "A" "docA")
                "B" "docB")
              "C" "docC")
            "D" "docD")
          "A" "B")
        "A" "C")
      "B" "D")
    "C" "D"

/-- Sample documents for concrete builder checks: two documents in directory
x with increasing timestamps and one in directory y. -/
def docX1 : Doc := ⟨"one", some "x/1.html", some "t1"⟩

def docX2 : Doc := ⟨"two", some "x/2.html", some "t2"⟩

def docY1 : Doc := ⟨"three", some "y/1.html", some "t3"⟩

def sampleDocs : List Doc := [docX1, docX2, docY1]

/-- Well-formedness maintained by networkx: the adjacency dict has exactly
the same keys, in the same order, as the node dict. -/
def WFg (g : DiGraph α) : Prop := g.succ.map (·.1) = g.nodes.map (·.1)

/-- Number of graph nodes not yet visited: the quantity that strictly
decreases whenever the BFS marks a new node visited. -/
def unvisCount (g : DiGraph α) (v : List String) : Nat :=
  ((nodeKeys g).filter (fun k => decide (k ∉ v))).length

/-- The edge list of the adjacency structure, source-major, each source in
dict order and its targets in edge-insertion order. -/
def edgesOf (l : List (String × List String)) : List (String × String) :=
  l.flatMap (fun p => p.2.map (fun t => (p.1, t)))

def edgeList (g : DiGraph α) : List (String × String) := edgesOf g.succ

/-- Model of pathlib PurePosixPath: the absolute flag and the normalized
component list, with empty and single-dot components dropped, as pathlib
normalizes. -/
structure PurePath where
  absolute : Bool
  parts : List String
deriving DecidableEq, Repr

/-- Split a character list at every slash, as Python str.split of a path
string: n separators give n plus 1 segments, empty segments included. -/
def splitSlash : List Char → List (List Char)
  | [] => [[]]
  | c :: rest =>
    if c = '/' then [] :: splitSlash rest
    else
      match splitSlash rest with
      | [] => [[c]]
      | seg :: segs => (c :: seg) :: segs

def headIsSlash : List Char → Bool
  | [] => false
  | c :: _ => c = '/'

def parsePath (s : String) : PurePath :=
  ⟨headIsSlash s.data,
   ((splitSlash s.data).map (fun seg => String.mk seg)).filter
     (fun p => !(p == "" || p == "."))⟩

/-- pathlib parent: drop the last component; the empty path (the
current-directory sentinel) and the root are their own parents. -/
def PurePath.parent (p : PurePath) : PurePath :=
  if p.parts = [] then p else ⟨p.absolute, p.parts.dropLast⟩

/-- Sort key used by the builder: metadata.get of timestamp with the
empty-string default. -/
def tsKey (d : Doc) : String := d.timestamp.getD ""

/-- Grouping key used by the builder: the parent of the Path of
metadata.get of source with the single-dot default. -/
def groupKey (d : Doc) : PurePath := (parsePath (d.source.getD ".")).parent

/-- Node identifier assigned by the builder: the prefix, an underscore and
the zero-based position in the input sequence. -/
def nodeId (pfx : String) (i : Nat) : String := pfx ++ "_" ++ Nat.repr i

/-- The documents paired with their assigned identifiers, in input order. -/
def withIds (docs : List Doc) (pfx : String) : List (String × Doc) :=
  docs.enum.map (fun p => (nodeId pfx p.1, p.2))

/-- Insertion into the grouping dict: append to the entry with the given
key, or append a fresh entry at the end, as defaultdict does (keys in
first-occurrence order, members in insertion order). -/
def groupedInsert : List (PurePath × List (String × Doc)) → PurePath →
    String × Doc → List (PurePath × List (String × Doc))
  | [], k, x => [(k, [x])]
  | (k0, ms) :: rest, k, x =>
    if k0 = k then (k0, ms ++ [x]) :: rest
    else (k0, ms) :: groupedInsert rest k x

/-- The grouping pass of the builder: partition the identified documents by
the parent of their source path. The Python code stores identifiers and
looks the documents back up in the graph; identifiers are fresh and unique
(proved below), so carrying the pair is the same map. -/
def buildGroups (docs : List Doc) (pfx : String) :
    List (PurePath × List (String × Doc)) :=
  (withIds docs pfx).foldl (fun gs x => groupedInsert gs (groupKey x.2) x) []

/-- The comparison handed to the stable sort: Python sorted with the
timestamp key, lexicographic on strings. -/
def docLE (a b : String × Doc) : Bool := decide (tsKey a.2 ≤ tsKey b.2)

/-- itertools pairwise: consecutive pairs of a list. -/
def consecPairs : List β → List (β × β)
  | [] => []
  | [_] => []
  | a :: b :: rest => (a, b) :: consecPairs (b :: rest)

/-- The chain a group contributes: consecutive pairs of its members sorted
by timestamp (stable sort, as Python sorted). -/
def chainOf (ms : List (String × Doc)) : List ((String × Doc) × (String × Doc)) :=
  consecPairs (ms.mergeSort docLE)

/-- The builder _graph_from_documents: add every document as a node under
its synthetic identifier, then, group by group, link the members in
timestamp order. -/
def graph_from_documents (docs : List Doc) (pfx : String) : DiGraph Doc :=
  let g0 := (withIds docs pfx).foldl
    (fun g x => add_artifact g x.1 x.2) (emptyGraph Doc)
  (buildGroups docs pfx).foldl
    (fun g kg => (chainOf kg.2).foldl
      (fun g e => add_relationship g e.1.1 e.2.1) g) g0

/-- The edges the builder derives, flattened group by group. -/
def builderEdges (docs : List Doc) (pfx : String) : List (String × String) :=
  (buildGroups docs pfx).flatMap
    (fun kg => (chainOf kg.2).map (fun e => (e.1.1, e.2.1)))

/-- Decimal digit list of n, most significant first: what Nat.repr prints.
Used to prove the synthetic node identifiers injective. -/
def digitChars (n : Nat) : List Char :=
  if h : n < 10 then [Nat.digitChar n]
  else digitChars (n / 10) ++ [Nat.digitChar (n % 10)]
decreasing_by exact Nat.div_lt_self (by omega) (by omega)

/-- Decimal value of a digit list, used to invert digitChars. -/
def digitVal (l : List Char) : Nat :=
  l.foldl (fun a c => 10 * a + (c.toNat - 48)) 0

/-- Graph reads in explicit state-passing form, for the frame claim: each
read returns its value together with the graph it leaves behind (networkx
membership, adjacency and attribute reads are queries and do not write). -/
def readContains (g : DiGraph α) (id : String) : Bool × DiGraph α :=
  (containsNode g id, g)

def readSucc (g : DiGraph α) (id : String) : List String × DiGraph α :=
  (succOf g id, g)

def readLookup (g : DiGraph α) (id : String) : Option (Option α) × DiGraph α :=
  (lookupNode g id, g)

/-- State-passing form of the neighbors comprehension: the graph produced by
each read is the one handed to the next. -/
def getDocsS (g : DiGraph α) : List String → Except GraphError (List α) × DiGraph α
  | [] => (.ok [], g)
  | n :: ns =>
    let rg := readLookup g n
    match rg.1 with
    | none => (.error (.keyError n), rg.2)
    | some none => (.error (.keyError "document"), rg.2)
    | some (some d) =>
      let rg2 := getDocsS rg.2 ns
      (rg2.1.map (fun l => d :: l), rg2.2)

/-- State-passing form of CourseGraph.neighbors. -/
def neighborsS (g : DiGraph α) (id : String) :
    Except GraphError (List α) × DiGraph α :=
  let cg := readContains g id
  if cg.1 then
    let sg := readSucc cg.2 id
    getDocsS sg.2 sg.1
  else (.error (.keyError (notFoundMsg id)), cg.2)

/-- State-passing form of the inner BFS loop. -/
def expandS (d : Int) : DiGraph α → List String → List String →
    List (String × Int) → List α →
    Except GraphError (List String × List (String × Int) × List α) × DiGraph α
  | g, [], visited, queue, docs => (.ok (visited, queue, docs), g)
  | g, n :: ns, visited, queue, docs =>
    if n ∈ visited then expandS d g ns visited queue docs
    else
      let rg := readLookup g n
      match rg.1 with
      | none => (.error (.keyError n), rg.2)
      | some none => (.error (.keyError "document"), rg.2)
      | some (some doc) =>
        expandS d rg.2 ns (n :: visited) (queue ++ [(n, d + 1)]) (docs ++ [doc])

/-- State-passing form of the BFS while-loop. -/
def bfsLoopS (depth : Int) : Nat → DiGraph α → List (String × Int) →
    List String → List α →
    Option (Except GraphError (List α)) × DiGraph α
  | 0, g, _, _, _ => (none, g)
  | _ + 1, g, [], _, docs => (some (.ok docs), g)
  | fuel + 1, g, (node, d) :: rest, visited, docs =>
    if depth ≤ d then bfsLoopS depth fuel g rest visited docs
    else
      let sg := readSucc g node
      match expandS d sg.2 sg.1 visited rest docs with
      | (.error e, g2) => (some (.error e), g2)
      | (.ok (v, q, ds), g2) => bfsLoopS depth fuel g2 q v ds

/-- State-passing form of GraphRetriever.retrieve: also returns the graph
as it stands when the call returns. -/
def retrieveS (r : GraphRetriever α) (id : String) (maxDepth : Option Int) :
    Except GraphError (List α) × DiGraph α :=
  let cg := readContains r.graph id
  if cg.1 then
    let depth := maxDepth.getD r.maxDepth
    match bfsLoopS depth (2 * cg.2.nodes.length + 1) cg.2 [(id, 0)] [id] [] with
    | (some res, g2) => (res, g2)
    | (none, g2) => (.error .fuelExhausted, g2)
  else (.error (.keyError (notFoundMsg id)), cg.2)

section Lookup

variable {α β : Type}

theorem find?_eq_none_of_not_mem_keys (l : List (String × β)) (s : String)
    (h : s ∉ l.map (·.1)) : l.find? (fun p => p.1 == s) = none := by
  rw [List.find?_eq_none]
  intro p hp hps
  exact h (List.mem_map.mpr ⟨p, hp, by simpa using hps⟩)

theorem find?_append_left_none (l1 l2 : List (String × β))
    (p : String × β → Bool) (h : l1.find? p = none) :
    (l1 ++ l2).find? p = l2.find? p := by
  induction l1 with
  | nil => rfl
  | cons a l ih =>
    cases hpa : p a with
    | true => rw [List.find?_cons_of_pos _ hpa] at h; exact Option.noConfusion h
    | false =>
      rw [List.find?_cons_of_neg _ (by simp [hpa])] at h
      rw [List.cons_append, List.find?_cons_of_neg _ (by simp [hpa])]
      exact ih h

theorem lookupNode_eq_none_iff (g : DiGraph α) (id : String) :
    lookupNode g id = none ↔ id ∉ nodeKeys g := by
  unfold lookupNode nodeKeys
  rw [Option.map_eq_none', List.find?_eq_none]
  constructor
  · intro h hmem
    obtain ⟨p, hp, hid⟩ := List.mem_map.mp hmem
    exact absurd hid (by simpa using h p hp)
  · intro h p hp hps
    exact h (List.mem_map.mpr ⟨p, hp, by simpa using hps⟩)

theorem containsNode_iff (g : DiGraph α) (id : String) :
    containsNode g id = true ↔ id ∈ nodeKeys g := by
  unfold containsNode
  rw [Option.isSome_iff_ne_none]
  constructor
  · intro h
    by_contra hmem
    exact h ((lookupNode_eq_none_iff g id).mpr hmem)
  · intro h hn
    exact (lookupNode_eq_none_iff g id).mp hn h

theorem containsNode_eq_false_iff (g : DiGraph α) (id : String) :
    containsNode g id = false ↔ id ∉ nodeKeys g := by
  constructor
  · intro h hmem
    exact absurd ((containsNode_iff g id).mpr hmem) (by simp [h])
  · intro h
    cases hc : containsNode g id with
    | false => rfl
    | true => exact absurd ((containsNode_iff g id).mp hc) h

theorem mem_nodeKeys_of_lookupNode_eq_some (g : DiGraph α) (id : String)
    (x : Option α) (h : lookupNode g id = some x) : id ∈ nodeKeys g := by
  by_contra hmem
  rw [(lookupNode_eq_none_iff g id).mpr hmem] at h
  exact Option.noConfusion h

theorem find?_key_append_not_mem (l l2 : List (String × β)) (s : String)
    (h : s ∉ l.map (·.1)) :
    (l ++ l2).find? (fun p => p.1 == s) = l2.find? (fun p => p.1 == s) :=
  find?_append_left_none l l2 _ (find?_eq_none_of_not_mem_keys l s h)

theorem lookupNode_mk_append (n1 n2 : List (String × Option α))
    (sc : List (String × List String)) (s : String) (h : s ∉ n1.map (·.1)) :
    lookupNode ⟨n1 ++ n2, sc⟩ s = lookupNode ⟨n2, sc⟩ s := by
  unfold lookupNode
  rw [find?_key_append_not_mem n1 n2 s h]

theorem lookupNode_cons_self (v : Option α) (l : List (String × Option α))
    (sc : List (String × List String)) (s : String) :
    lookupNode ⟨(s, v) :: l, sc⟩ s = some v := by
  unfold lookupNode
  rw [List.find?_cons_of_pos _ (by simp)]
  rfl

theorem lookupNode_cons_ne (k : String) (v : Option α) (l : List (String × Option α))
    (sc : List (String × List String)) (s : String) (h : k ≠ s) :
    lookupNode ⟨(k, v) :: l, sc⟩ s = lookupNode ⟨l, sc⟩ s := by
  unfold lookupNode
  rw [List.find?_cons_of_neg _ (by simp [h])]

theorem succOf_mk_append (sc1 sc2 : List (String × List String))
    (nd : List (String × Option α)) (s : String) (h : s ∉ sc1.map (·.1)) :
    succOf ⟨nd, sc1 ++ sc2⟩ s = succOf ⟨nd, sc2⟩ s := by
  unfold succOf
  rw [find?_key_append_not_mem sc1 sc2 s h]

theorem succOf_cons_self (ts : List String) (l : List (String × List String))
    (nd : List (String × Option α)) (s : String) :
    succOf ⟨nd, (s, ts) :: l⟩ s = ts := by
  unfold succOf
  rw [List.find?_cons_of_pos _ (by simp)]
  rfl

theorem addSucc_append_not_mem (l l2 : List (String × List String))
    (s t : String) (ts : List String) (h : s ∉ l.map (·.1)) :
    addSucc (l ++ (s, ts) :: l2) s t
      = l ++ (s, if t ∈ ts then ts else ts ++ [t]) :: l2 := by
  induction l with
  | nil => simp [addSucc]
  | cons a l ih =>
    have ha : a.1 ≠ s := fun he => h (by simp [he])
    have hl : s ∉ l.map (·.1) := fun hm => h (List.mem_cons_of_mem _ hm)
    calc addSucc ((a.1, a.2) :: (l ++ (s, ts) :: l2)) s t
        = (a.1, a.2) :: addSucc (l ++ (s, ts) :: l2) s t := by
          simp [addSucc, ha]
      _ = (a.1, a.2) :: (l ++ (s, if t ∈ ts then ts else ts ++ [t]) :: l2) := by
          rw [ih hl]

/-- When every listed node carries a document, the neighbors comprehension
returns exactly those documents in list order. -/
theorem getDocs_eq_ok (g : DiGraph α) (ns : List String)
    (h : ∀ t ∈ ns, (docOf g t).isSome) :
    getDocs g ns = .ok (ns.filterMap (docOf g)) := by
  induction ns with
  | nil => rfl
  | cons n ns ih =>
    have hn := h n (List.mem_cons_self n ns)
    cases hl : lookupNode g n with
    | none => rw [docOf, hl] at hn; simp at hn
    | some o =>
      cases o with
      | none => rw [docOf, hl] at hn; simp at hn
      | some d =>
        have hd : docOf g n = some d := by rw [docOf, hl]; rfl
        simp only [getDocs, hl, List.filterMap_cons, hd]
        rw [ih (fun t ht => h t (List.mem_cons_of_mem n ht))]
        rfl

end Lookup

/-- C1: on the linear chain A to B to C to D, retrieve from A returns the
documents of B, of B and C, and of B, C and D for maximum depths 1, 2 and 3
respectively, in breadth-first discovery order. -/
theorem claim_C1_depth_bound :
    GraphRetriever.retrieve ⟨chainGraph, 1⟩ "A" (some 1) = .ok ["docB"] ∧
    GraphRetriever.retrieve ⟨chainGraph, 1⟩ "A" (some 2) = .ok ["docB", "docC"] ∧
    GraphRetriever.retrieve ⟨chainGraph, 1⟩ "A" (some 3)
      = .ok ["docB", "docC", "docD"] :=
  ⟨rfl, rfl, rfl⟩

/-- C4: for an identifier absent from the graph, neighbors and retrieve both
fail with a KeyError whose message contains the identifier, and produce no
partial result (the error is the whole outcome of the call). -/
theorem claim_C4_not_found {α : Type} (g : DiGraph α) (x : String) (md : Int)
    (od : Option Int) (h : containsNode g x = false) :
    neighbors g x = .error (.keyError (notFoundMsg x)) ∧
    GraphRetriever.retrieve ⟨g, md⟩ x od = .error (.keyError (notFoundMsg x)) ∧
    ∃ pre post, notFoundMsg x = pre ++ x ++ post :=
  ⟨by simp [neighbors, h],
   by simp [GraphRetriever.retrieve, h],
   ⟨"Artifact ID \x27", "\x27 not found in graph.", rfl⟩⟩

theorem claim_C4_not_found_witness :
    containsNode (emptyGraph String) "missing" = false ∧
    (neighbors (emptyGraph String) "missing"
        = .error (.keyError (notFoundMsg "missing")) ∧
      GraphRetriever.retrieve ⟨emptyGraph String, 1⟩ "missing" none
        = .error (.keyError (notFoundMsg "missing")) ∧
      ∃ pre post, notFoundMsg "missing" = pre ++ "missing" ++ post) :=
  ⟨rfl, claim_C4_not_found (emptyGraph String) "missing" 1 none rfl⟩

/-- C5: for a node present in the graph whose successors all carry documents,
neighbors returns exactly the documents of the nodes with an edge from it, in
adjacency order, and a repeated call returns the same list. -/
theorem claim_C5_neighbors {α : Type} (g : DiGraph α) (n : String)
    (h1 : containsNode g n = true)
    (h2 : ∀ t ∈ succOf g n, (docOf g t).isSome) :
    neighbors g n = .ok ((succOf g n).filterMap (docOf g)) ∧
    neighbors g n = neighbors g n :=
  ⟨by simp only [neighbors, h1, if_true]; exact getDocs_eq_ok g _ h2, rfl⟩

theorem claim_C5_neighbors_witness :
    containsNode chainGraph "A" = true ∧
    (∀ t ∈ succOf chainGraph "A", (docOf chainGraph t).isSome) ∧
    (neighbors chainGraph "A" = .ok ((succOf chainGraph "A").filterMap (docOf chainGraph)) ∧
      neighbors chainGraph "A" = neighbors chainGraph "A") :=
  ⟨rfl, by decide, claim_C5_neighbors chainGraph "A" rfl (by decide)⟩

/-- C10: add_relationship on two identifiers never added as artifacts
silently creates both as document-less nodes; neighbors on the source then
passes the membership check and fails with a KeyError whose message is the
missing attribute name document, independent of the artifact identifier,
instead of the identifier-naming not-found error. -/
theorem claim_C10_dangling_edge {α : Type} (g : DiGraph α) (s t : String)
    (hwf : WFg g) (hs : containsNode g s = false) (ht : containsNode g t = false) :
    containsNode (add_relationship g s t) s = true ∧
    containsNode (add_relationship g s t) t = true ∧
    docOf (add_relationship g s t) s = none ∧
    docOf (add_relationship g s t) t = none ∧
    neighbors (add_relationship g s t) s = .error (.keyError "document") := by
  have hs' : s ∉ g.nodes.map (·.1) := (containsNode_eq_false_iff g s).mp hs
  have ht' : t ∉ g.nodes.map (·.1) := (containsNode_eq_false_iff g t).mp ht
  unfold WFg at hwf
  have hssucc : s ∉ g.succ.map (·.1) := by rw [hwf]; exact hs'
  have e1 : ensureNode g s
      = ⟨g.nodes ++ [(s, none)], g.succ ++ [(s, [])]⟩ := by
    simp [ensureNode, hs]
  by_cases hts : t = s
  · subst hts
    have c1 : containsNode (⟨g.nodes ++ [(t, none)], g.succ ++ [(t, [])]⟩ : DiGraph α) t
        = true := by
      unfold containsNode
      rw [lookupNode_mk_append _ _ _ _ ht', lookupNode_cons_self]
      rfl
    have e2 : add_relationship g t t
        = ⟨g.nodes ++ [(t, none)], g.succ ++ [(t, [t])]⟩ := by
      unfold add_relationship
      rw [e1]
      simp only [ensureNode, c1, if_true]
      have : addSucc (g.succ ++ [(t, [])]) t t = g.succ ++ [(t, [t])] := by
        have := addSucc_append_not_mem g.succ [] t t [] hssucc
        simpa using this
      simp [this]
    rw [e2]
    have hlt : lookupNode (⟨g.nodes ++ [(t, none)], g.succ ++ [(t, [t])]⟩ : DiGraph α) t
        = some none := by
      rw [lookupNode_mk_append _ _ _ _ ht', lookupNode_cons_self]
    have hct : containsNode (⟨g.nodes ++ [(t, none)], g.succ ++ [(t, [t])]⟩ : DiGraph α) t
        = true := by unfold containsNode; rw [hlt]; rfl
    refine ⟨hct, hct, ?_, ?_, ?_⟩
    · unfold docOf; rw [hlt]; rfl
    · unfold docOf; rw [hlt]; rfl
    · have hsu : succOf (⟨g.nodes ++ [(t, none)], g.succ ++ [(t, [t])]⟩ : DiGraph α) t
          = [t] := by
        rw [succOf_mk_append _ _ _ _ hssucc, succOf_cons_self]
      simp only [neighbors, hct, if_true, hsu, getDocs, hlt]
  · have c2 : containsNode (⟨g.nodes ++ [(s, none)], g.succ ++ [(s, [])]⟩ : DiGraph α) t
        = false := by
      unfold containsNode
      rw [lookupNode_mk_append _ _ _ _ ht',
        lookupNode_cons_ne _ _ _ _ _ (fun h => hts h.symm)]
      rfl
    have e2 : add_relationship g s t
        = ⟨g.nodes ++ (s, none) :: [(t, none)], g.succ ++ (s, [t]) :: [(t, [])]⟩ := by
      unfold add_relationship
      rw [e1]
      simp only [ensureNode, c2, if_false, Bool.false_eq_true]
      have : addSucc ((g.succ ++ [(s, [])]) ++ [(t, [])]) s t
          = g.succ ++ (s, [t]) :: [(t, [])] := by
        have h1 : (g.succ ++ [(s, [])]) ++ [(t, [])]
            = g.succ ++ (s, []) :: [(t, [])] := by simp
        rw [h1, addSucc_append_not_mem g.succ [(t, [])] s t [] hssucc]
        rfl
      simp only [this]
      simp
    rw [e2]
    have hls : lookupNode
        (⟨g.nodes ++ (s, none) :: [(t, none)], g.succ ++ (s, [t]) :: [(t, [])]⟩ : DiGraph α) s
        = some none := by
      rw [lookupNode_mk_append _ _ _ _ hs', lookupNode_cons_self]
    have hlt : lookupNode
        (⟨g.nodes ++ (s, none) :: [(t, none)], g.succ ++ (s, [t]) :: [(t, [])]⟩ : DiGraph α) t
        = some none := by
      rw [lookupNode_mk_append _ _ _ _ ht',
        lookupNode_cons_ne _ _ _ _ _ (fun h => hts h.symm), lookupNode_cons_self]
    have hcs : containsNode
        (⟨g.nodes ++ (s, none) :: [(t, none)], g.succ ++ (s, [t]) :: [(t, [])]⟩ : DiGraph α) s
        = true := by unfold containsNode; rw [hls]; rfl
    have hct : containsNode
        (⟨g.nodes ++ (s, none) :: [(t, none)], g.succ ++ (s, [t]) :: [(t, [])]⟩ : DiGraph α) t
        = true := by unfold containsNode; rw [hlt]; rfl
    refine ⟨hcs, hct, ?_, ?_, ?_⟩
    · unfold docOf; rw [hls]; rfl
    · unfold docOf; rw [hlt]; rfl
    · have hsu : succOf
          (⟨g.nodes ++ (s, none) :: [(t, none)], g.succ ++ (s, [t]) :: [(t, [])]⟩ : DiGraph α) s
          = [t] := by
        rw [succOf_mk_append _ _ _ _ hssucc, succOf_cons_self]
      simp only [neighbors, hcs, if_true, hsu, getDocs, hlt]

theorem claim_C10_dangling_edge_witness :
    WFg (emptyGraph String) ∧
    containsNode (emptyGraph String) "s" = false ∧
    containsNode (emptyGraph String) "t" = false ∧
    (containsNode (add_relationship (emptyGraph String) "s" "t") "s" = true ∧
      containsNode (add_relationship (emptyGraph String) "s" "t") "t" = true ∧
      docOf (add_relationship (emptyGraph String) "s" "t") "s" = none ∧
      docOf (add_relationship (emptyGraph String) "s" "t") "t" = none ∧
      neighbors (add_relationship (emptyGraph String) "s" "t") "s"
        = .error (.keyError "document")) :=
  ⟨rfl, rfl, rfl, claim_C10_dangling_edge (emptyGraph String) "s" "t" rfl rfl rfl⟩

theorem filter_length_mono_of_imp (l : List String) (p q : String → Bool)
    (himp : ∀ a, p a = true → q a = true) :
    (l.filter p).length ≤ (l.filter q).length := by
  induction l with
  | nil => simp
  | cons a l ih =>
    cases hpa : p a with
    | true =>
      rw [List.filter_cons, List.filter_cons, hpa, himp a hpa]
      simpa using ih
    | false =>
      rw [List.filter_cons, hpa]
      cases hqa : q a with
      | true =>
        rw [List.filter_cons, hqa]
        simp only [if_true, List.length_cons, Bool.false_eq_true, if_false]
        omega
      | false =>
        rw [List.filter_cons, hqa]
        simpa using ih

theorem filter_length_strict_mono (l : List String) (p q : String → Bool)
    (himp : ∀ a, p a = true → q a = true) (n : String) (hn : n ∈ l)
    (hpn : p n = false) (hqn : q n = true) :
    (l.filter p).length < (l.filter q).length := by
  induction l with
  | nil => cases hn
  | cons a l ih =>
    cases hn with
    | head =>
      rw [List.filter_cons, List.filter_cons, hpn, hqn]
      simp only [Bool.false_eq_true, if_false, if_true, List.length_cons]
      exact Nat.lt_succ_of_le (filter_length_mono_of_imp l p q himp)
    | tail _ hn' =>
      cases hpa : p a with
      | true =>
        rw [List.filter_cons, List.filter_cons, hpa, himp a hpa]
        simpa using ih hn'
      | false =>
        rw [List.filter_cons, hpa]
        cases hqa : q a with
        | true =>
          rw [List.filter_cons, hqa]
          simp only [if_true, List.length_cons, Bool.false_eq_true, if_false]
          exact Nat.lt_succ_of_lt (ih hn')
        | false =>
          rw [List.filter_cons, hqa]
          simpa using ih hn'

theorem unvisCount_cons_lt (g : DiGraph α) (v : List String) (n : String)
    (hn : n ∈ nodeKeys g) (hv : n ∉ v) :
    unvisCount g (n :: v) < unvisCount g v := by
  apply filter_length_strict_mono (nodeKeys g)
    (fun k => decide (k ∉ n :: v)) (fun k => decide (k ∉ v))
  · intro a ha
    have : a ∉ n :: v := of_decide_eq_true ha
    exact decide_eq_true (fun hm => this (List.mem_cons_of_mem n hm))
  · exact hn
  · exact decide_eq_false (fun hm => hm (List.mem_cons_self n v))
  · exact decide_eq_true hv

/-- Processing a neighbor list never increases the BFS measure: each newly
visited node costs two units of the unvisited budget and adds one queue
entry. -/
theorem expand_measure (g : DiGraph α) (d : Int) :
    ∀ (ns visited : List String) (queue : List (String × Int)) (docs : List α)
      (v' : List String) (q' : List (String × Int)) (ds' : List α),
      expand g d ns visited queue docs = .ok (v', q', ds') →
      2 * unvisCount g v' + q'.length ≤ 2 * unvisCount g visited + queue.length := by
  intro ns
  induction ns with
  | nil =>
    intro visited queue docs v' q' ds' h
    simp only [expand, Except.ok.injEq, Prod.mk.injEq] at h
    obtain ⟨rfl, rfl, rfl⟩ := h
    exact le_refl _
  | cons n ns ih =>
    intro visited queue docs v' q' ds' h
    simp only [expand] at h
    by_cases hmem : n ∈ visited
    · rw [if_pos hmem] at h
      exact ih visited queue docs v' q' ds' h
    · rw [if_neg hmem] at h
      cases hl : lookupNode g n with
      | none => rw [hl] at h; exact Except.noConfusion h
      | some o =>
        cases o with
        | none => rw [hl] at h; exact Except.noConfusion h
        | some doc =>
          rw [hl] at h
          have hk : n ∈ nodeKeys g := mem_nodeKeys_of_lookupNode_eq_some g n _ hl
          have hrec := ih (n :: visited) (queue ++ [(n, d + 1)]) (docs ++ [doc])
            v' q' ds' h
          have hlt := unvisCount_cons_lt g visited n hk hmem
          simp only [List.length_append, List.length_singleton] at hrec
          omega

/-- With fuel exceeding the measure, the BFS loop always completes. -/
theorem bfsLoop_fuel (g : DiGraph α) (depth : Int) :
    ∀ (fuel : Nat) (queue : List (String × Int)) (visited : List String)
      (docs : List α),
      2 * unvisCount g visited + queue.length < fuel →
      bfsLoop g depth fuel queue visited docs ≠ none := by
  intro fuel
  induction fuel with
  | zero => intro queue visited docs h; omega
  | succ fuel ih =>
    intro queue visited docs h
    cases queue with
    | nil => simp [bfsLoop]
    | cons hd rest =>
      obtain ⟨node, d⟩ := hd
      simp only [bfsLoop]
      by_cases hd' : depth ≤ d
      · rw [if_pos hd']
        apply ih
        simp only [List.length_cons] at h
        omega
      · rw [if_neg hd']
        cases hexp : expand g d (succOf g node) visited rest docs with
        | error e => simp
        | ok res =>
          obtain ⟨v, q, ds⟩ := res
          have hm := expand_measure g d (succOf g node) visited rest docs v q ds hexp
          apply ih
          simp only [List.length_cons] at h
          omega

/-- The inner loop raises only KeyError. -/
theorem expand_error (g : DiGraph α) (d : Int) :
    ∀ (ns visited : List String) (queue : List (String × Int)) (docs : List α)
      (e : GraphError),
      expand g d ns visited queue docs = .error e → ∃ m, e = .keyError m := by
  intro ns
  induction ns with
  | nil => intro _ _ _ e h; exact Except.noConfusion h
  | cons n ns ih =>
    intro visited queue docs e h
    simp only [expand] at h
    by_cases hmem : n ∈ visited
    · rw [if_pos hmem] at h
      exact ih visited queue docs e h
    · rw [if_neg hmem] at h
      cases hl : lookupNode g n with
      | none =>
        rw [hl] at h
        exact ⟨n, (Except.error.inj h).symm⟩
      | some o =>
        cases o with
        | none =>
          rw [hl] at h
          exact ⟨"document", (Except.error.inj h).symm⟩
        | some doc =>
          rw [hl] at h
          exact ih _ _ _ e h

/-- The BFS loop raises only KeyError. -/
theorem bfsLoop_error (g : DiGraph α) (depth : Int) :
    ∀ (fuel : Nat) (queue : List (String × Int)) (visited : List String)
      (docs : List α) (e : GraphError),
      bfsLoop g depth fuel queue visited docs = some (.error e) →
      ∃ m, e = .keyError m := by
  intro fuel
  induction fuel with
  | zero => intro _ _ _ e h; exact Option.noConfusion h
  | succ fuel ih =>
    intro queue visited docs e h
    cases queue with
    | nil =>
      simp only [bfsLoop] at h
      exact Except.noConfusion (Option.some.inj h)
    | cons hd rest =>
      obtain ⟨node, d⟩ := hd
      simp only [bfsLoop] at h
      by_cases hd' : depth ≤ d
      · rw [if_pos hd'] at h
        exact ih rest visited docs e h
      · rw [if_neg hd'] at h
        cases hexp : expand g d (succOf g node) visited rest docs with
        | error e' =>
          rw [hexp] at h
          obtain he := Except.error.inj (Option.some.inj h)
          subst he
          exact expand_error g d _ _ _ _ _ hexp
        | ok res =>
          obtain ⟨v, q, ds⟩ := res
          rw [hexp] at h
          exact ih q v ds e h

/-- C8: retrieve terminates on every graph, seed and depth bound: the
fuel-instrumented BFS loop never exhausts the fuel retrieve supplies, so the
fuel sentinel is unreachable and every call produces an ordinary result. -/
theorem claim_C8_termination {α : Type} (g : DiGraph α) (id : String)
    (od : Option Int) (md : Int) :
    GraphRetriever.retrieve ⟨g, md⟩ id od ≠ .error .fuelExhausted := by
  unfold GraphRetriever.retrieve
  cases hc : containsNode g id with
  | false =>
    simp only [Bool.false_eq_true, if_false]
    intro h
    exact GraphError.noConfusion (Except.error.inj h)
  | true =>
    simp only [if_true]
    have hmem : id ∈ nodeKeys g := (containsNode_iff g id).mp hc
    have hcount : unvisCount g [id] < g.nodes.length := by
      have h1 : unvisCount g [id] < unvisCount g [] :=
        unvisCount_cons_lt g [] id hmem (by simp)
      have h2 : unvisCount g [] = g.nodes.length := by
        unfold unvisCount
        rw [List.filter_eq_self.mpr (fun a _ => by simp)]
        simp [nodeKeys]
      omega
    have hfuel : 2 * unvisCount g [id] + ([(id, (0 : Int))]).length
        < 2 * g.nodes.length + 1 := by
      simp only [List.length_singleton]
      omega
    cases hb : bfsLoop g (od.getD md) (2 * g.nodes.length + 1) [(id, 0)] [id] [] with
    | none => exact absurd hb (bfsLoop_fuel g _ _ _ _ _ hfuel)
    | some res =>
      simp only []
      cases res with
      | ok out => intro h; exact Except.noConfusion h
      | error e =>
        intro h
        obtain he := Except.error.inj h
        subst he
        obtain ⟨m, hm⟩ := bfsLoop_error g _ _ _ _ _ _ hb
        exact GraphError.noConfusion hm

/-- Ghost description of the inner loop: it appends to the document output
exactly the documents of a duplicate-free batch of nodes that were not yet
visited, and it marks exactly those nodes visited. -/
theorem expand_emits (g : DiGraph α) (d : Int) :
    ∀ (ns visited : List String) (queue : List (String × Int)) (docs : List α)
      (v' : List String) (q' : List (String × Int)) (ds' : List α),
      expand g d ns visited queue docs = .ok (v', q', ds') →
      ∃ new : List String,
        ds' = docs ++ new.filterMap (docOf g) ∧
        new.Nodup ∧
        (∀ i ∈ new, i ∉ visited ∧ (docOf g i).isSome ∧ i ∈ v') ∧
        (∀ i ∈ visited, i ∈ v') := by
  intro ns
  induction ns with
  | nil =>
    intro visited queue docs v' q' ds' h
    simp only [expand, Except.ok.injEq, Prod.mk.injEq] at h
    obtain ⟨rfl, rfl, rfl⟩ := h
    exact ⟨[], by simp, List.nodup_nil, by simp, fun i hi => hi⟩
  | cons n ns ih =>
    intro visited queue docs v' q' ds' h
    simp only [expand] at h
    by_cases hmem : n ∈ visited
    · rw [if_pos hmem] at h
      exact ih visited queue docs v' q' ds' h
    · rw [if_neg hmem] at h
      cases hl : lookupNode g n with
      | none => rw [hl] at h; exact Except.noConfusion h
      | some o =>
        cases o with
        | none => rw [hl] at h; exact Except.noConfusion h
        | some doc =>
          rw [hl] at h
          obtain ⟨new2, hds, hnd, hprops, hsub⟩ :=
            ih (n :: visited) (queue ++ [(n, d + 1)]) (docs ++ [doc]) v' q' ds' h
          have hdoc : docOf g n = some doc := by rw [docOf, hl]; rfl
          refine ⟨n :: new2, ?_, ?_, ?_, ?_⟩
          · rw [hds, List.filterMap_cons, hdoc]
            simp
          · refine List.Nodup.cons ?_ hnd
            intro hn2
            exact (hprops n hn2).1 (List.mem_cons_self n visited)
          · intro i hi
            cases hi with
            | head =>
              exact ⟨hmem, by rw [hdoc]; rfl, hsub n (List.mem_cons_self n visited)⟩
            | tail _ hi' =>
              obtain ⟨hnv, hds', hv'⟩ := hprops i hi'
              exact ⟨fun hm => hnv (List.mem_cons_of_mem n hm), hds', hv'⟩
          · intro i hi
            exact hsub i (List.mem_cons_of_mem n hi)

/-- Ghost description of the BFS loop: its output extends the accumulator by
the documents of a duplicate-free list of nodes disjoint from the visited
set. -/
theorem bfsLoop_emits (g : DiGraph α) (depth : Int) :
    ∀ (fuel : Nat) (queue : List (String × Int)) (visited : List String)
      (docs : List α) (out : List α),
      bfsLoop g depth fuel queue visited docs = some (.ok out) →
      ∃ ids : List String,
        out = docs ++ ids.filterMap (docOf g) ∧
        ids.Nodup ∧
        ∀ i ∈ ids, i ∉ visited ∧ (docOf g i).isSome := by
  intro fuel
  induction fuel with
  | zero => intro _ _ _ _ h; exact Option.noConfusion h
  | succ fuel ih =>
    intro queue visited docs out h
    cases queue with
    | nil =>
      simp only [bfsLoop, Option.some.injEq, Except.ok.injEq] at h
      subst h
      exact ⟨[], by simp, List.nodup_nil, by simp⟩
    | cons hd rest =>
      obtain ⟨node, d⟩ := hd
      simp only [bfsLoop] at h
      by_cases hd' : depth ≤ d
      · rw [if_pos hd'] at h
        exact ih rest visited docs out h
      · rw [if_neg hd'] at h
        cases hexp : expand g d (succOf g node) visited rest docs with
        | error e =>
          rw [hexp] at h
          exact Except.noConfusion (Option.some.inj h)
        | ok res =>
          obtain ⟨v, q, ds⟩ := res
          rw [hexp] at h
          obtain ⟨new, hds, hndnew, hnewprops, hsub⟩ :=
            expand_emits g d (succOf g node) visited rest docs v q ds hexp
          obtain ⟨ids2, hout, hnd2, hprops2⟩ := ih q v ds out h
          refine ⟨new ++ ids2, ?_, ?_, ?_⟩
          · rw [hout, hds, List.filterMap_append, List.append_assoc]
          · refine List.Nodup.append hndnew hnd2 ?_
            intro a ha ha2
            exact (hprops2 a ha2).1 (hnewprops a ha).2.2
          · intro i hi
            cases List.mem_append.mp hi with
            | inl hi' =>
              exact ⟨(hnewprops i hi').1, (hnewprops i hi').2.1⟩
            | inr hi' =>
              refine ⟨fun hm => (hprops2 i hi').1 (hsub i hm), (hprops2 i hi').2⟩

/-- C2: retrieve emits the document of each node at most once and never the
document held at the seed node: every successful result is the document list
of a duplicate-free list of non-seed node identifiers. On the two-cycle
A to B to A, retrieve from A at depth 5 returns exactly the document of B
once, and on the diamond A to B, A to C, B to D, C to D, retrieve from A at
depth 2 contains the document of D exactly once. -/
theorem claim_C2_dedup {α : Type} (g : DiGraph α) (md : Int) (seed : String)
    (od : Option Int) (out : List α)
    (h : GraphRetriever.retrieve ⟨g, md⟩ seed od = .ok out) :
    (∃ ids : List String,
      out = ids.filterMap (docOf g) ∧ ids.Nodup ∧ seed ∉ ids) ∧
    GraphRetriever.retrieve ⟨cycleGraph, 1⟩ "A" (some 5) = .ok ["docB"] ∧
    (GraphRetriever.retrieve ⟨diamondGraph, 1⟩ "A" (some 2)).map
        (fun l => l.count "docD") = .ok 1 := by
  refine ⟨?_, rfl, rfl⟩
  unfold GraphRetriever.retrieve at h
  cases hc : containsNode g seed with
  | false =>
    rw [hc] at h
    simp only [Bool.false_eq_true, if_false] at h
    exact Except.noConfusion h
  | true =>
    rw [hc] at h
    simp only [if_true] at h
    cases hb : bfsLoop g (od.getD md) (2 * g.nodes.length + 1)
        [(seed, 0)] [seed] [] with
    | none =>
      rw [hb] at h
      exact Except.noConfusion h
    | some res =>
      rw [hb] at h
      subst h
      obtain ⟨ids, hout, hnd, hprops⟩ :=
        bfsLoop_emits g (od.getD md) _ _ _ _ _ hb
      refine ⟨ids, by simpa using hout, hnd, ?_⟩
      intro hmem
      exact (hprops seed hmem).1 (List.mem_cons_self seed [])

theorem claim_C2_dedup_witness :
    GraphRetriever.retrieve ⟨cycleGraph, 1⟩ "A" (some 5) = .ok ["docB"] ∧
    ((∃ ids : List String,
        ["docB"] = ids.filterMap (docOf cycleGraph) ∧ ids.Nodup ∧ "A" ∉ ids) ∧
      GraphRetriever.retrieve ⟨cycleGraph, 1⟩ "A" (some 5) = .ok ["docB"] ∧
      (GraphRetriever.retrieve ⟨diamondGraph, 1⟩ "A" (some 2)).map
          (fun l => l.count "docD") = .ok 1) :=
  ⟨rfl, claim_C2_dedup cycleGraph 1 "A" (some 5) ["docB"] rfl⟩

theorem digitChars_eq_small {n : Nat} (h : n < 10) :
    digitChars n = [Nat.digitChar n] := by
  rw [digitChars, dif_pos h]

theorem digitChars_eq_large {n : Nat} (h : ¬ n < 10) :
    digitChars n = digitChars (n / 10) ++ [Nat.digitChar (n % 10)] := by
  conv_lhs => rw [digitChars]
  rw [dif_neg h]

theorem toDigitsCore_eq_digitChars :
    ∀ (fuel n : Nat) (ds : List Char), n < fuel →
      Nat.toDigitsCore 10 fuel n ds = digitChars n ++ ds := by
  intro fuel
  induction fuel with
  | zero => intro n ds h; omega
  | succ fuel ih =>
    intro n ds h
    by_cases h10 : n < 10
    · have hdiv : n / 10 = 0 := Nat.div_eq_of_lt h10
      have hmod : n % 10 = n := Nat.mod_eq_of_lt h10
      unfold Nat.toDigitsCore
      rw [digitChars_eq_small h10]
      simp only [hdiv, hmod, if_true]
      rfl
    · have hdiv : ¬ n / 10 = 0 := by omega
      unfold Nat.toDigitsCore
      simp only [hdiv, if_false]
      rw [ih (n / 10) (Nat.digitChar (n % 10) :: ds) (by omega)]
      rw [digitChars_eq_large h10]
      simp

theorem repr_eq_digitChars (n : Nat) : Nat.repr n = (digitChars n).asString := by
  show (Nat.toDigits 10 n).asString = _
  unfold Nat.toDigits
  rw [toDigitsCore_eq_digitChars (n + 1) n [] (Nat.lt_succ_self n),
    List.append_nil]

theorem digitVal_digitChars (n : Nat) : digitVal (digitChars n) = n := by
  induction n using Nat.strong_induction_on with
  | _ n ih =>
    by_cases h : n < 10
    · rw [digitChars_eq_small h]
      unfold digitVal
      simp only [List.foldl_cons, List.foldl_nil]
      interval_cases n <;> rfl
    · rw [digitChars_eq_large h]
      unfold digitVal
      rw [List.foldl_append]
      have ihv := ih (n / 10) (Nat.div_lt_self (by omega) (by omega))
      unfold digitVal at ihv
      rw [ihv]
      simp only [List.foldl_cons, List.foldl_nil]
      have hm : n % 10 < 10 := by omega
      have h2 : (Nat.digitChar (n % 10)).toNat - 48 = n % 10 := by
        set m := n % 10 with hm2
        interval_cases m <;> rfl
      rw [h2]
      omega

theorem digitChars_injective : Function.Injective digitChars := by
  intro a b h
  have ha := digitVal_digitChars a
  rw [h, digitVal_digitChars b] at ha
  exact ha.symm

theorem repr_injective : Function.Injective Nat.repr := by
  intro a b h
  rw [repr_eq_digitChars, repr_eq_digitChars] at h
  apply digitChars_injective
  exact congrArg String.data h

theorem nodeId_injective (pfx : String) : Function.Injective (nodeId pfx) := by
  intro i j h
  unfold nodeId at h
  have hd := congrArg String.data h
  rw [String.data_append, String.data_append, String.data_append,
    String.data_append, List.append_assoc, List.append_assoc] at hd
  have hr : (Nat.repr i).data = (Nat.repr j).data :=
    List.append_cancel_left (List.append_cancel_left hd)
  exact repr_injective (String.ext hr)

theorem withIds_keys (docs : List Doc) (pfx : String) :
    (withIds docs pfx).map (·.1) = (List.range docs.length).map (nodeId pfx) := by
  unfold withIds
  rw [List.map_map, ← List.enum_map_fst docs, List.map_map]
  rfl

theorem withIds_keys_nodup (docs : List Doc) (pfx : String) :
    ((withIds docs pfx).map (·.1)).Nodup := by
  rw [withIds_keys]
  exact (List.nodup_range docs.length).map (nodeId_injective pfx)

theorem find?_eq_of_mem_nodup {β : Type} (l : List (String × β)) (s : String)
    (b : β) (hmem : (s, b) ∈ l) (hnd : (l.map (·.1)).Nodup) :
    l.find? (fun p => p.1 == s) = some (s, b) := by
  induction l with
  | nil => cases hmem
  | cons a l ih =>
    rw [List.map_cons] at hnd
    cases hmem with
    | head => exact List.find?_cons_of_pos _ (by simp)
    | tail _ hmem' =>
      have ha : a.1 ≠ s := by
        intro he
        exact (List.nodup_cons.mp hnd).1
          (he ▸ List.mem_map.mpr ⟨(s, b), hmem', rfl⟩)
      rw [List.find?_cons_of_neg _ (by simp [ha])]
      exact ih hmem' (List.nodup_cons.mp hnd).2

/-- Folding add_artifact over fresh, duplicate-free identified documents
appends exactly the corresponding node and adjacency entries. -/
theorem foldl_add_artifact {α : Type} :
    ∀ (l : List (String × α)) (g : DiGraph α),
      (∀ p ∈ l, p.1 ∉ nodeKeys g) → ((l.map (·.1)).Nodup) →
      l.foldl (fun g x => add_artifact g x.1 x.2) g
        = ⟨g.nodes ++ l.map (fun p => (p.1, some p.2)),
           g.succ ++ l.map (fun p => (p.1, []))⟩ := by
  intro l
  induction l with
  | nil => intro g _ _; simp
  | cons a l ih =>
    intro g hfresh hnd
    rw [List.map_cons] at hnd
    have hc : containsNode g a.1 = false :=
      (containsNode_eq_false_iff g a.1).mpr (hfresh a (List.mem_cons_self a l))
    have hstep : add_artifact g a.1 a.2
        = ⟨g.nodes ++ [(a.1, some a.2)], g.succ ++ [(a.1, [])]⟩ := by
      simp [add_artifact, hc]
    have hfresh' : ∀ p ∈ l,
        p.1 ∉ nodeKeys (⟨g.nodes ++ [(a.1, some a.2)], g.succ ++ [(a.1, [])]⟩ :
          DiGraph α) := by
      intro p hp
      have h1 : p.1 ∉ nodeKeys g := hfresh p (List.mem_cons_of_mem a hp)
      have h2 : p.1 ≠ a.1 := by
        intro he
        exact (List.nodup_cons.mp hnd).1 (he ▸ List.mem_map.mpr ⟨p, hp, rfl⟩)
      unfold nodeKeys at h1 ⊢
      simp only [List.map_append]
      intro hmm
      cases List.mem_append.mp hmm with
      | inl hmm' => exact h1 hmm'
      | inr hmm' => exact h2 (by simpa using hmm')
    rw [List.foldl_cons, hstep, ih _ hfresh' (List.nodup_cons.mp hnd).2]
    simp

theorem edgesOf_cons (p : String × List String) (l : List (String × List String)) :
    edgesOf (p :: l) = p.2.map (fun t => (p.1, t)) ++ edgesOf l := by
  simp [edgesOf]

theorem edgesOf_map_nil {α : Type} (l : List (String × α)) :
    edgesOf (l.map (fun p => (p.1, ([] : List String)))) = [] := by
  induction l with
  | nil => rfl
  | cons a l ih => rw [List.map_cons, edgesOf_cons, ih]; simp

theorem addSucc_keys_of_mem :
    ∀ (l : List (String × List String)) (s t : String),
      s ∈ l.map (·.1) → (addSucc l s t).map (·.1) = l.map (·.1) := by
  intro l
  induction l with
  | nil => intro s t hs; cases hs
  | cons a l ih =>
    intro s t hs
    obtain ⟨k, ts⟩ := a
    by_cases hk : k = s
    · simp [addSucc, hk]
    · have hs' : s ∈ l.map (·.1) := by
        cases hs with
        | head => exact absurd rfl hk
        | tail _ h => exact h
      simp [addSucc, hk, ih s t hs']

theorem edgesOf_addSucc_perm :
    ∀ (l : List (String × List String)) (s t : String),
      s ∈ l.map (·.1) → (s, t) ∉ edgesOf l →
      List.Perm (edgesOf (addSucc l s t)) ((s, t) :: edgesOf l) := by
  intro l
  induction l with
  | nil => intro s t hs _; cases hs
  | cons a l ih =>
    intro s t hs ht
    obtain ⟨k, ts⟩ := a
    by_cases hk : k = s
    · subst hk
      have htts : t ∉ ts := by
        intro hin
        refine ht ?_
        rw [edgesOf_cons]
        exact List.mem_append.mpr (Or.inl (List.mem_map.mpr ⟨t, hin, rfl⟩))
      have hred : addSucc ((k, ts) :: l) k t = (k, ts ++ [t]) :: l := by
        simp [addSucc, htts]
      rw [hred, edgesOf_cons, edgesOf_cons]
      simp only [List.map_append, List.map_cons, List.map_nil]
      rw [List.append_assoc]
      exact List.perm_middle
    · simp only [addSucc, if_neg hk]
      rw [edgesOf_cons, edgesOf_cons]
      have hs' : s ∈ l.map (·.1) := by
        cases hs with
        | head => exact absurd rfl hk
        | tail _ h => exact h
      have ht' : (s, t) ∉ edgesOf l := by
        intro hin
        refine ht ?_
        rw [edgesOf_cons]
        exact List.mem_append.mpr (Or.inr hin)
      exact (List.Perm.append_left _ (ih s t hs' ht')).trans List.perm_middle

theorem ensureNode_of_mem (g : DiGraph α) (id : String)
    (h : containsNode g id = true) : ensureNode g id = g := by
  simp [ensureNode, h]

theorem add_relationship_both_mem (g : DiGraph α) (s t : String)
    (hs : containsNode g s = true) (ht : containsNode g t = true) :
    add_relationship g s t = ⟨g.nodes, addSucc g.succ s t⟩ := by
  unfold add_relationship
  rw [ensureNode_of_mem g s hs, ensureNode_of_mem g t ht]

/-- Folding add_relationship over duplicate-free fresh edges between
existing nodes leaves the node dict unchanged, preserves well-formedness
and adds exactly those edges. -/
theorem foldl_add_relationship {α : Type} :
    ∀ (es : List (String × String)) (g : DiGraph α),
      WFg g →
      (∀ e ∈ es, e.1 ∈ nodeKeys g ∧ e.2 ∈ nodeKeys g) →
      es.Nodup →
      (∀ e ∈ es, e ∉ edgeList g) →
      (es.foldl (fun g e => add_relationship g e.1 e.2) g).nodes = g.nodes ∧
      WFg (es.foldl (fun g e => add_relationship g e.1 e.2) g) ∧
      List.Perm (edgeList (es.foldl (fun g e => add_relationship g e.1 e.2) g))
        (edgeList g ++ es) := by
  intro es
  induction es with
  | nil => intro g hwf _ _ _; exact ⟨rfl, hwf, by simp⟩
  | cons e es ih =>
    intro g hwf hend hnd hfresh
    obtain ⟨hs, ht⟩ := hend e (List.mem_cons_self e es)
    have hstep : add_relationship g e.1 e.2 = ⟨g.nodes, addSucc g.succ e.1 e.2⟩ :=
      add_relationship_both_mem g e.1 e.2
        ((containsNode_iff _ _).mpr hs) ((containsNode_iff _ _).mpr ht)
    have hsuccmem : e.1 ∈ g.succ.map (·.1) := by
      unfold WFg at hwf
      rw [hwf]
      exact hs
    have hwf' : WFg (⟨g.nodes, addSucc g.succ e.1 e.2⟩ : DiGraph α) := by
      unfold WFg at hwf ⊢
      simp only
      rw [addSucc_keys_of_mem g.succ e.1 e.2 hsuccmem]
      exact hwf
    have hperm : List.Perm
        (edgeList (⟨g.nodes, addSucc g.succ e.1 e.2⟩ : DiGraph α))
        (e :: edgeList g) := by
      have hfr : (e.1, e.2) ∉ edgesOf g.succ := hfresh e (List.mem_cons_self e es)
      exact edgesOf_addSucc_perm g.succ e.1 e.2 hsuccmem hfr
    have hend' : ∀ e' ∈ es,
        e'.1 ∈ nodeKeys (⟨g.nodes, addSucc g.succ e.1 e.2⟩ : DiGraph α) ∧
        e'.2 ∈ nodeKeys (⟨g.nodes, addSucc g.succ e.1 e.2⟩ : DiGraph α) := by
      intro e' he'
      exact hend e' (List.mem_cons_of_mem e he')
    have hfresh' : ∀ e' ∈ es,
        e' ∉ edgeList (⟨g.nodes, addSucc g.succ e.1 e.2⟩ : DiGraph α) := by
      intro e' he' hin
      cases (hperm.mem_iff).mp hin with
      | head => exact (List.nodup_cons.mp hnd).1 he'
      | tail _ hin' => exact hfresh e' (List.mem_cons_of_mem e he') hin'
    obtain ⟨hn, hw, hp⟩ := ih (⟨g.nodes, addSucc g.succ e.1 e.2⟩ : DiGraph α)
      hwf' hend' (List.nodup_cons.mp hnd).2 hfresh'
    refine ⟨?_, ?_, ?_⟩
    · rw [List.foldl_cons, hstep]
      exact hn
    · rw [List.foldl_cons, hstep]
      exact hw
    · rw [List.foldl_cons, hstep]
      refine hp.trans ?_
      refine ((hperm.append_right es).trans ?_)
      exact List.perm_middle.symm

theorem groupedInsert_members (gs : List (PurePath × List (String × Doc)))
    (k : PurePath) (x : String × Doc) :
    List.Perm ((groupedInsert gs k x).flatMap (·.2)) (x :: gs.flatMap (·.2)) := by
  induction gs with
  | nil => simp [groupedInsert]
  | cons a gs ih =>
    obtain ⟨k0, ms⟩ := a
    by_cases hk : k0 = k
    · simp only [groupedInsert, if_pos hk]
      rw [List.flatMap_cons, List.flatMap_cons]
      rw [List.append_assoc]
      exact List.perm_middle
    · simp only [groupedInsert, if_neg hk]
      rw [List.flatMap_cons, List.flatMap_cons]
      exact (List.Perm.append_left _ ih).trans List.perm_middle

theorem groupedInsert_keyed :
    ∀ (gs : List (PurePath × List (String × Doc))) (k : PurePath)
      (x : String × Doc),
      (∀ kg ∈ gs, ∀ m ∈ kg.2, groupKey m.2 = kg.1) → groupKey x.2 = k →
      ∀ kg ∈ groupedInsert gs k x, ∀ m ∈ kg.2, groupKey m.2 = kg.1 := by
  intro gs
  induction gs with
  | nil =>
    intro k x _ hx kg hkg m hm
    simp only [groupedInsert, List.mem_singleton] at hkg
    subst hkg
    simp only [List.mem_singleton] at hm
    subst hm
    exact hx
  | cons a gs ih =>
    intro k x hgs hx kg hkg m hm
    obtain ⟨k0, ms⟩ := a
    by_cases hk : k0 = k
    · simp only [groupedInsert, if_pos hk] at hkg
      cases hkg with
      | head =>
        cases List.mem_append.mp hm with
        | inl hm' => exact hgs (k0, ms) (List.mem_cons_self _ _) m hm'
        | inr hm' =>
          simp only [List.mem_singleton] at hm'
          subst hm'
          rw [hx, hk]
      | tail _ hkg' =>
        exact hgs kg (List.mem_cons_of_mem _ hkg') m hm
    · simp only [groupedInsert, if_neg hk] at hkg
      cases hkg with
      | head => exact hgs (k0, ms) (List.mem_cons_self _ _) m hm
      | tail _ hkg' =>
        exact ih k x (fun kg' h' => hgs kg' (List.mem_cons_of_mem _ h')) hx
          kg hkg' m hm

theorem foldl_groupedInsert_members :
    ∀ (l : List (String × Doc)) (gs : List (PurePath × List (String × Doc))),
      List.Perm
        ((l.foldl (fun gs x => groupedInsert gs (groupKey x.2) x) gs).flatMap (·.2))
        (gs.flatMap (·.2) ++ l) := by
  intro l
  induction l with
  | nil => intro gs; simp
  | cons x l ih =>
    intro gs
    rw [List.foldl_cons]
    refine (ih (groupedInsert gs (groupKey x.2) x)).trans ?_
    refine (List.Perm.append_right l (groupedInsert_members gs _ x)).trans ?_
    exact List.perm_middle.symm

theorem buildGroups_members (docs : List Doc) (pfx : String) :
    List.Perm ((buildGroups docs pfx).flatMap (·.2)) (withIds docs pfx) := by
  unfold buildGroups
  simpa using foldl_groupedInsert_members (withIds docs pfx) []

theorem buildGroups_keyed (docs : List Doc) (pfx : String) :
    ∀ kg ∈ buildGroups docs pfx, ∀ m ∈ kg.2, groupKey m.2 = kg.1 := by
  unfold buildGroups
  have hfold : ∀ (l : List (String × Doc)) (gs : List (PurePath × List (String × Doc))),
      (∀ kg ∈ gs, ∀ m ∈ kg.2, groupKey m.2 = kg.1) →
      ∀ kg ∈ l.foldl (fun gs x => groupedInsert gs (groupKey x.2) x) gs,
        ∀ m ∈ kg.2, groupKey m.2 = kg.1 := by
    intro l
    induction l with
    | nil => intro gs h; exact h
    | cons x l ih =>
      intro gs h
      rw [List.foldl_cons]
      exact ih _ (groupedInsert_keyed gs _ x h rfl)
  exact hfold (withIds docs pfx) [] (fun kg hkg => absurd hkg (List.not_mem_nil kg))

theorem consecPairs_length {β : Type} : ∀ (l : List β),
    (consecPairs l).length = l.length - 1 := by
  intro l
  induction l with
  | nil => rfl
  | cons a l ih =>
    cases l with
    | nil => rfl
    | cons b rest =>
      simp only [consecPairs, List.length_cons] at ih ⊢
      omega

theorem consecPairs_mem {β : Type} : ∀ (l : List β) (p : β × β),
    p ∈ consecPairs l → p.1 ∈ l ∧ p.2 ∈ l := by
  intro l
  induction l with
  | nil => intro p hp; cases hp
  | cons a l ih =>
    cases l with
    | nil => intro p hp; cases hp
    | cons b rest =>
      intro p hp
      simp only [consecPairs] at hp
      cases hp with
      | head => exact ⟨List.mem_cons_self _ _, List.mem_cons_of_mem a (List.mem_cons_self _ _)⟩
      | tail _ hp' =>
        obtain ⟨h1, h2⟩ := ih p hp'
        exact ⟨List.mem_cons_of_mem a h1, List.mem_cons_of_mem a h2⟩

theorem consecPairs_pairwise {β : Type} (R : β → β → Prop) : ∀ (l : List β),
    l.Pairwise R → ∀ p ∈ consecPairs l, R p.1 p.2 := by
  intro l
  induction l with
  | nil => intro _ p hp; cases hp
  | cons a l ih =>
    cases l with
    | nil => intro _ p hp; cases hp
    | cons b rest =>
      intro h p hp
      simp only [consecPairs] at hp
      cases hp with
      | head => exact (List.pairwise_cons.mp h).1 b (List.mem_cons_self b rest)
      | tail _ hp' => exact ih (List.pairwise_cons.mp h).2 p hp'

theorem consecPairs_map_fst {β : Type} : ∀ (l : List β),
    (consecPairs l).map (·.1) = l.dropLast := by
  intro l
  induction l with
  | nil => rfl
  | cons a l ih =>
    cases l with
    | nil => rfl
    | cons b rest =>
      simp only [consecPairs, List.map_cons]
      rw [ih]
      rfl

theorem docLE_trans : ∀ (a b c : String × Doc),
    docLE a b → docLE b c → docLE a c := by
  intro a b c hab hbc
  exact decide_eq_true
    (le_trans (of_decide_eq_true hab) (of_decide_eq_true hbc))

theorem docLE_total : ∀ (a b : String × Doc), docLE a b || docLE b a := by
  intro a b
  cases le_total (tsKey a.2) (tsKey b.2) with
  | inl h => simp [docLE, h]
  | inr h => simp [docLE, h]

theorem chainOf_mem (ms : List (String × Doc))
    (p : (String × Doc) × (String × Doc)) (hp : p ∈ chainOf ms) :
    p.1 ∈ ms ∧ p.2 ∈ ms := by
  obtain ⟨h1, h2⟩ := consecPairs_mem _ p hp
  exact ⟨List.mem_mergeSort.mp h1, List.mem_mergeSort.mp h2⟩

theorem chainOf_sorted (ms : List (String × Doc)) :
    ∀ p ∈ chainOf ms, tsKey p.1.2 ≤ tsKey p.2.2 := by
  intro p hp
  have hs : (ms.mergeSort docLE).Pairwise (fun a b => docLE a b = true) :=
    List.sorted_mergeSort docLE_trans docLE_total ms
  exact of_decide_eq_true (consecPairs_pairwise _ _ hs p hp)

theorem chainOf_length (ms : List (String × Doc)) :
    (chainOf ms).length = ms.length - 1 := by
  unfold chainOf
  rw [consecPairs_length, List.length_mergeSort]

theorem nodup_of_flatMap_mem {γ β' : Type} :
    ∀ (L : List γ) (f : γ → List β'), (L.flatMap f).Nodup →
      ∀ c ∈ L, (f c).Nodup := by
  intro L
  induction L with
  | nil => intro f _ c hc; cases hc
  | cons c0 L ih =>
    intro f hnd c hc
    rw [List.flatMap_cons, List.nodup_append] at hnd
    cases hc with
    | head => exact hnd.1
    | tail _ hc' => exact ih f hnd.2.1 c hc'

theorem nodup_flatMap_of_sub {γ β' : Type} :
    ∀ (L : List γ) (f g : γ → List β'), (L.flatMap f).Nodup →
      (∀ c ∈ L, (g c).Nodup ∧ ∀ x ∈ g c, x ∈ f c) →
      (L.flatMap g).Nodup := by
  intro L
  induction L with
  | nil => intro f g _ _; simp
  | cons c L ih =>
    intro f g hnd hsub
    rw [List.flatMap_cons, List.nodup_append] at hnd ⊢
    obtain ⟨h1, h2, h3⟩ := hnd
    refine ⟨(hsub c (List.mem_cons_self c L)).1,
      ih f g h2 (fun c' hc' => hsub c' (List.mem_cons_of_mem c hc')), ?_⟩
    intro a ha ha2
    obtain ⟨c', hc', ha'⟩ := List.mem_flatMap.mp ha2
    exact h3 ((hsub c (List.mem_cons_self c L)).2 a ha)
      (List.mem_flatMap.mpr ⟨c', hc', (hsub c' (List.mem_cons_of_mem c hc')).2 a ha'⟩)

theorem group_ids_nodup (docs : List Doc) (pfx : String) :
    ((buildGroups docs pfx).flatMap (fun kg => kg.2.map (·.1))).Nodup := by
  have hperm : List.Perm (((buildGroups docs pfx).flatMap (·.2)).map (·.1))
      ((withIds docs pfx).map (·.1)) :=
    (buildGroups_members docs pfx).map (·.1)
  have hnd : (((buildGroups docs pfx).flatMap (·.2)).map (·.1)).Nodup :=
    hperm.nodup_iff.mpr (withIds_keys_nodup docs pfx)
  rw [List.map_flatMap] at hnd
  exact hnd

theorem builderEdges_map_fst (docs : List Doc) (pfx : String) :
    (builderEdges docs pfx).map (·.1)
      = (buildGroups docs pfx).flatMap
          (fun kg => ((kg.2.mergeSort docLE).dropLast).map (·.1)) := by
  unfold builderEdges
  rw [List.map_flatMap]
  congr 1
  funext kg
  rw [List.map_map]
  have h1 : ((chainOf kg.2).map (·.1)).map (·.1)
      = ((kg.2.mergeSort docLE).dropLast).map (·.1) := by
    unfold chainOf
    rw [consecPairs_map_fst]
  rw [List.map_map] at h1
  exact h1

theorem builderEdges_nodup (docs : List Doc) (pfx : String) :
    (builderEdges docs pfx).Nodup := by
  apply List.Nodup.of_map (·.1)
  rw [builderEdges_map_fst]
  apply nodup_flatMap_of_sub (buildGroups docs pfx)
    (fun kg => kg.2.map (·.1)) _ (group_ids_nodup docs pfx)
  intro kg hkg
  have hpm : List.Perm ((kg.2.mergeSort docLE).map (·.1)) (kg.2.map (·.1)) :=
    (List.mergeSort_perm kg.2 docLE).map (·.1)
  have hnd2 : ((kg.2.mergeSort docLE).map (·.1)).Nodup :=
    hpm.nodup_iff.mpr (nodup_of_flatMap_mem _ _ (group_ids_nodup docs pfx) kg hkg)
  constructor
  · rw [List.map_dropLast]
    exact List.Nodup.sublist (List.dropLast_sublist _) hnd2
  · intro x hx
    rw [List.map_dropLast] at hx
    have hx' : x ∈ (kg.2.mergeSort docLE).map (·.1) :=
      List.Sublist.mem hx (List.dropLast_sublist _)
    exact hpm.mem_iff.mp hx'

theorem group_member_in_withIds (docs : List Doc) (pfx : String)
    (kg : PurePath × List (String × Doc)) (hkg : kg ∈ buildGroups docs pfx)
    (m : String × Doc) (hm : m ∈ kg.2) : m ∈ withIds docs pfx :=
  (buildGroups_members docs pfx).mem_iff.mp
    (List.mem_flatMap.mpr ⟨kg, hkg, hm⟩)

theorem builderEdges_endpoints (docs : List Doc) (pfx : String) :
    ∀ e ∈ builderEdges docs pfx,
      e.1 ∈ (withIds docs pfx).map (·.1) ∧
      e.2 ∈ (withIds docs pfx).map (·.1) := by
  intro e he
  unfold builderEdges at he
  obtain ⟨kg, hkg, he'⟩ := List.mem_flatMap.mp he
  obtain ⟨p, hp, hpe⟩ := List.mem_map.mp he'
  obtain ⟨h1, h2⟩ := chainOf_mem kg.2 p hp
  subst hpe
  exact ⟨List.mem_map.mpr ⟨p.1, group_member_in_withIds docs pfx kg hkg p.1 h1, rfl⟩,
    List.mem_map.mpr ⟨p.2, group_member_in_withIds docs pfx kg hkg p.2 h2, rfl⟩⟩

theorem foldl_flatMap {γ δ ε : Type} :
    ∀ (L : List γ) (f : γ → List δ) (step : ε → δ → ε) (init : ε),
      (L.flatMap f).foldl step init
        = L.foldl (fun acc c => (f c).foldl step acc) init := by
  intro L
  induction L with
  | nil => intro f step init; rfl
  | cons c L ih =>
    intro f step init
    rw [List.flatMap_cons, List.foldl_append, List.foldl_cons, ih]

theorem builder_unfold (docs : List Doc) (pfx : String) :
    graph_from_documents docs pfx
      = (builderEdges docs pfx).foldl (fun g e => add_relationship g e.1 e.2)
          ((withIds docs pfx).foldl (fun g x => add_artifact g x.1 x.2)
            (emptyGraph Doc)) := by
  unfold graph_from_documents builderEdges
  rw [foldl_flatMap]
  simp only [List.foldl_map]

theorem g0_spec (docs : List Doc) (pfx : String) :
    (withIds docs pfx).foldl (fun g x => add_artifact g x.1 x.2) (emptyGraph Doc)
      = ⟨(withIds docs pfx).map (fun p => (p.1, some p.2)),
         (withIds docs pfx).map (fun p => (p.1, []))⟩ := by
  rw [foldl_add_artifact (withIds docs pfx) (emptyGraph Doc)
    (fun p _ => by simp [nodeKeys, emptyGraph]) (withIds_keys_nodup docs pfx)]
  simp [emptyGraph]

/-- The builder in one step: its node dict is the identified documents in
input order, it is well-formed, and its edges are exactly the per-group
chains. -/
theorem builder_spec (docs : List Doc) (pfx : String) :
    (graph_from_documents docs pfx).nodes
        = (withIds docs pfx).map (fun p => (p.1, some p.2)) ∧
    WFg (graph_from_documents docs pfx) ∧
    List.Perm (edgeList (graph_from_documents docs pfx))
      (builderEdges docs pfx) := by
  rw [builder_unfold, g0_spec]
  have hwf0 : WFg (⟨(withIds docs pfx).map (fun p => (p.1, some p.2)),
      (withIds docs pfx).map (fun p => (p.1, []))⟩ : DiGraph Doc) := by
    unfold WFg
    simp [List.map_map]
  have hkeys0 : nodeKeys (⟨(withIds docs pfx).map (fun p => (p.1, some p.2)),
      (withIds docs pfx).map (fun p => (p.1, []))⟩ : DiGraph Doc)
      = (withIds docs pfx).map (·.1) := by
    unfold nodeKeys
    simp [List.map_map]
  have hedge0 : edgeList (⟨(withIds docs pfx).map (fun p => (p.1, some p.2)),
      (withIds docs pfx).map (fun p => (p.1, []))⟩ : DiGraph Doc) = [] := by
    unfold edgeList
    exact edgesOf_map_nil _
  obtain ⟨hn, hw, hp⟩ := foldl_add_relationship (builderEdges docs pfx) _
    hwf0
    (by
      intro e he
      rw [hkeys0]
      exact builderEdges_endpoints docs pfx e he)
    (builderEdges_nodup docs pfx)
    (by
      intro e _ hin
      rw [hedge0] at hin
      cases hin)
  refine ⟨by rw [hn], hw, ?_⟩
  refine hp.trans ?_
  rw [hedge0]
  simp

/-- C3: the builder partitions the documents by the parent directory of
their source metadata; the edges are exactly, group by group, the
consecutive pairs of the group sorted by ascending timestamp (so a group of
size N contributes exactly N minus 1 edges forming a single chain), and an
edge never joins two documents whose source parents differ. -/
theorem claim_C3_builder_chains (docs : List Doc) (pfx : String) :
    List.Perm (edgeList (graph_from_documents docs pfx))
      (builderEdges docs pfx) ∧
    (∀ kg ∈ buildGroups docs pfx, ∀ m ∈ kg.2, groupKey m.2 = kg.1) ∧
    (∀ kg ∈ buildGroups docs pfx, (chainOf kg.2).length = kg.2.length - 1) ∧
    (∀ kg ∈ buildGroups docs pfx, ∀ e ∈ chainOf kg.2,
      groupKey e.1.2 = groupKey e.2.2 ∧ tsKey e.1.2 ≤ tsKey e.2.2) ∧
    (∀ s t, (s, t) ∈ edgeList (graph_from_documents docs pfx) →
      ∃ ds dt, docOf (graph_from_documents docs pfx) s = some ds ∧
        docOf (graph_from_documents docs pfx) t = some dt ∧
        groupKey ds = groupKey dt ∧ tsKey ds ≤ tsKey dt) := by
  obtain ⟨hnodes, hwf, hperm⟩ := builder_spec docs pfx
  have hndkeys : (((withIds docs pfx).map
      (fun p => (p.1, some p.2))).map (·.1)).Nodup := by
    rw [List.map_map]
    simpa using withIds_keys_nodup docs pfx
  refine ⟨hperm, buildGroups_keyed docs pfx, ?_, ?_, ?_⟩
  · intro kg _
    exact chainOf_length kg.2
  · intro kg hkg e he
    obtain ⟨h1, h2⟩ := chainOf_mem kg.2 e he
    exact ⟨(buildGroups_keyed docs pfx kg hkg e.1 h1).trans
        (buildGroups_keyed docs pfx kg hkg e.2 h2).symm,
      chainOf_sorted kg.2 e he⟩
  · intro s t hst
    have hbe : (s, t) ∈ builderEdges docs pfx := hperm.mem_iff.mp hst
    unfold builderEdges at hbe
    obtain ⟨kg, hkg, he'⟩ := List.mem_flatMap.mp hbe
    obtain ⟨p, hp, hpe⟩ := List.mem_map.mp he'
    obtain ⟨h1, h2⟩ := chainOf_mem kg.2 p hp
    have hm1 : p.1 ∈ withIds docs pfx :=
      group_member_in_withIds docs pfx kg hkg p.1 h1
    have hm2 : p.2 ∈ withIds docs pfx :=
      group_member_in_withIds docs pfx kg hkg p.2 h2
    have hd1 : docOf (graph_from_documents docs pfx) p.1.1 = some p.1.2 := by
      unfold docOf lookupNode
      rw [hnodes, find?_eq_of_mem_nodup _ p.1.1 (some p.1.2)
        (List.mem_map.mpr ⟨p.1, hm1, rfl⟩) hndkeys]
      rfl
    have hd2 : docOf (graph_from_documents docs pfx) p.2.1 = some p.2.2 := by
      unfold docOf lookupNode
      rw [hnodes, find?_eq_of_mem_nodup _ p.2.1 (some p.2.2)
        (List.mem_map.mpr ⟨p.2, hm2, rfl⟩) hndkeys]
      rfl
    have hs : p.1.1 = s := congrArg Prod.fst hpe
    have ht : p.2.1 = t := congrArg Prod.snd hpe
    subst hs
    subst ht
    refine ⟨p.1.2, p.2.2, hd1, hd2,
      (buildGroups_keyed docs pfx kg hkg p.1 h1).trans
        (buildGroups_keyed docs pfx kg hkg p.2 h2).symm,
      chainOf_sorted kg.2 p hp⟩

/-- C6: the builder is deterministic: two runs on the same input produce
equal graphs, the node identifiers are the prefix with the zero-based
position, and the identifier at position i holds exactly the i-th input
document. -/
theorem claim_C6_determinism (docs : List Doc) (pfx : String) :
    graph_from_documents docs pfx = graph_from_documents docs pfx ∧
    nodeKeys (graph_from_documents docs pfx)
      = (List.range docs.length).map (nodeId pfx) ∧
    edgeList (graph_from_documents docs pfx)
      = edgeList (graph_from_documents docs pfx) ∧
    ∀ i (h : i < docs.length),
      docOf (graph_from_documents docs pfx) (nodeId pfx i)
        = some (docs.get ⟨i, h⟩) := by
  obtain ⟨hnodes, _, _⟩ := builder_spec docs pfx
  have hndkeys : (((withIds docs pfx).map
      (fun p => (p.1, some p.2))).map (·.1)).Nodup := by
    rw [List.map_map]
    simpa using withIds_keys_nodup docs pfx
  refine ⟨rfl, ?_, rfl, ?_⟩
  · unfold nodeKeys
    rw [hnodes, List.map_map]
    have h := withIds_keys docs pfx
    simpa using h
  · intro i h
    have hlen : i < docs.enum.length := by simpa [List.enum_length] using h
    have hmem : (nodeId pfx i, docs.get ⟨i, h⟩) ∈ withIds docs pfx := by
      unfold withIds
      refine List.mem_map.mpr ⟨docs.enum.get ⟨i, hlen⟩, List.get_mem _ _ _, ?_⟩
      have he : docs.enum.get ⟨i, hlen⟩ = (i, docs.get ⟨i, h⟩) := by
        rw [List.get_eq_getElem, List.getElem_enum]
        rfl
      rw [he]
    unfold docOf lookupNode
    rw [hnodes, find?_eq_of_mem_nodup _ _ (some (docs.get ⟨i, h⟩))
      (List.mem_map.mpr ⟨(nodeId pfx i, docs.get ⟨i, h⟩), hmem, rfl⟩) hndkeys]
    rfl

/-- C7: the builder never raises on missing metadata: it is a total
function; a document without a source key is grouped under the
current-directory sentinel, and a document without a timestamp key gets the
empty-string sort key, which is strictly below every non-empty timestamp. -/
theorem claim_C7_defaults (d1 d2 : Doc) (s : String) (h1 : d1.source = none)
    (h2 : d2.timestamp = none) (hs : s ≠ "") :
    groupKey d1 = parsePath "." ∧ tsKey d2 = "" ∧ tsKey d2 < s ∧
    ∀ (docs : List Doc) (pfx : String),
      ∃ g, graph_from_documents docs pfx = g := by
  refine ⟨?_, ?_, ?_, fun docs pfx => ⟨_, rfl⟩⟩
  · unfold groupKey
    rw [h1]
    rfl
  · unfold tsKey
    rw [h2]
    rfl
  · unfold tsKey
    rw [h2]
    show ("" : String) < s
    rw [String.lt_iff_toList_lt]
    cases hsd : s.toList with
    | nil => exact absurd (String.ext hsd) hs
    | cons c cs => exact List.nil_lt_cons c cs

theorem claim_C7_defaults_witness :
    (⟨"p", none, none⟩ : Doc).source = none ∧
    (⟨"p", none, none⟩ : Doc).timestamp = none ∧
    ("t1" : String) ≠ "" ∧
    (groupKey ⟨"p", none, none⟩ = parsePath "." ∧
      tsKey ⟨"p", none, none⟩ = "" ∧ tsKey ⟨"p", none, none⟩ < "t1" ∧
      ∀ (docs : List Doc) (pfx : String),
        ∃ g, graph_from_documents docs pfx = g) :=
  ⟨rfl, rfl, by decide,
   claim_C7_defaults ⟨"p", none, none⟩ ⟨"p", none, none⟩ "t1" rfl rfl (by decide)⟩

theorem getDocsS_spec {α : Type} :
    ∀ (ns : List String) (g : DiGraph α),
      getDocsS g ns = (getDocs g ns, g) := by
  intro ns
  induction ns with
  | nil => intro g; rfl
  | cons n ns ih =>
    intro g
    cases hl : lookupNode g n with
    | none => simp [getDocsS, getDocs, readLookup, hl]
    | some o =>
      cases o with
      | none => simp [getDocsS, getDocs, readLookup, hl]
      | some d => simp [getDocsS, getDocs, readLookup, hl, ih g]

theorem neighborsS_spec {α : Type} (g : DiGraph α) (id : String) :
    neighborsS g id = (neighbors g id, g) := by
  unfold neighborsS neighbors readContains readSucc
  cases hc : containsNode g id with
  | false => simp [hc]
  | true => simp [hc, getDocsS_spec]

theorem expandS_spec {α : Type} (d : Int) :
    ∀ (ns : List String) (g : DiGraph α) (visited : List String)
      (queue : List (String × Int)) (docs : List α),
      expandS d g ns visited queue docs
        = (expand g d ns visited queue docs, g) := by
  intro ns
  induction ns with
  | nil => intro g visited queue docs; rfl
  | cons n ns ih =>
    intro g visited queue docs
    by_cases hm : n ∈ visited
    · simp [expandS, expand, hm, ih]
    · cases hl : lookupNode g n with
      | none => simp [expandS, expand, hm, hl, readLookup]
      | some o =>
        cases o with
        | none => simp [expandS, expand, hm, hl, readLookup]
        | some doc => simp [expandS, expand, hm, hl, readLookup, ih]

theorem bfsLoopS_spec {α : Type} (depth : Int) :
    ∀ (fuel : Nat) (g : DiGraph α) (queue : List (String × Int))
      (visited : List String) (docs : List α),
      bfsLoopS depth fuel g queue visited docs
        = (bfsLoop g depth fuel queue visited docs, g) := by
  intro fuel
  induction fuel with
  | zero => intro g queue visited docs; rfl
  | succ fuel ih =>
    intro g queue visited docs
    cases queue with
    | nil => rfl
    | cons hd rest =>
      obtain ⟨node, dd⟩ := hd
      by_cases hd' : depth ≤ dd
      · simp [bfsLoopS, bfsLoop, hd', ih]
      · cases hexp : expand g dd (succOf g node) visited rest docs with
        | error e =>
          simp [bfsLoopS, bfsLoop, hd', readSucc, expandS_spec, hexp]
        | ok res =>
          obtain ⟨v, q, ds⟩ := res
          simp [bfsLoopS, bfsLoop, hd', readSucc, expandS_spec, hexp, ih]

theorem retrieveS_spec {α : Type} (r : GraphRetriever α) (id : String)
    (od : Option Int) :
    retrieveS r id od = (GraphRetriever.retrieve r id od, r.graph) := by
  unfold retrieveS GraphRetriever.retrieve readContains
  cases hc : containsNode r.graph id with
  | false => simp [hc]
  | true =>
    simp only [hc, if_true]
    cases hb : bfsLoop r.graph (od.getD r.maxDepth)
        (2 * r.graph.nodes.length + 1) [(id, 0)] [id] [] with
    | none => simp [bfsLoopS_spec, hb]
    | some res => simp [bfsLoopS_spec, hb]

/-- C9: neither retrieve nor neighbors mutates the graph: in the explicit
state-passing rendering of both calls, the graph handed back is the graph
handed in, and the returned value is the pure function of that graph. -/
theorem claim_C9_no_mutation {α : Type} (g : DiGraph α) (md : Int)
    (id n : String) (od : Option Int) :
    (retrieveS ⟨g, md⟩ id od).2 = g ∧
    (neighborsS g n).2 = g ∧
    (retrieveS ⟨g, md⟩ id od).1 = GraphRetriever.retrieve ⟨g, md⟩ id od ∧
    (neighborsS g n).1 = neighbors g n := by
  refine ⟨?_, ?_, ?_, ?_⟩ <;> simp [retrieveS_spec, neighborsS_spec]

end RagEd
